import Mathlib

/-!
# Verification of the permutation management subsystem (`src/js/permute.js`)

This file gives a shallow embedding of the three exported functions of
`src/js/permute.js` — `permuteVector`, `unpermuteVector` and
`updatePermutation` — on their permutation-array input path (the
`LayeredSparseMatrix` branch merely fetches such an array from the matrix
object), and proves or refutes the specification claims about them.

JavaScript arrays are modelled as `List (Option α)`, where `none` stands
for the JavaScript value `undefined`: reading out of range yields
`undefined`, and writing past the end of a plain `Array` extends it with
holes that read back as `undefined`.  `Int32Array` permutation vectors are
modelled as `List Nat`: writes out of range are silently dropped on a
typed array, and a stored `undefined` coerces to `0`.
-/

/-- JavaScript array read `xs[i]` on a plain `Array`: an out-of-range
read (and a hole) yields `undefined`, i.e. `none`. -/
def jsGet (xs : List (Option α)) (i : Nat) : Option α :=
  (xs.get? i).getD none

/-- JavaScript array write `xs[i] = v` on a plain `Array`: an in-range
write updates the slot, a write past the end extends the array, filling
the gap with holes that read back as `undefined`. -/
def jsSet (xs : List (Option α)) (i : Nat) (v : Option α) : List (Option α) :=
  if i < xs.length then xs.set i v
  else xs ++ List.replicate (i - xs.length) none ++ [v]

/-- Embedding of `permuteVector(layered, values)` from `src/js/permute.js`
(lines 14–28), on the path where `layered` is already a permutation array:
`let copy = values.slice(); perm.forEach((x, i) => { copy[x] = values[i]; });
return copy;`. -/
def permuteVector (perm : List Nat) (values : List (Option α)) : List (Option α) :=
  perm.enum.foldl (fun copy p => jsSet copy p.2 (jsGet values p.1)) values

/-- Embedding of `unpermuteVector(layered, values)` from `src/js/permute.js`
(lines 41–55), on the path where `layered` is already a permutation array:
`let copy = values.slice(); perm.forEach((x, i) => { copy[i] = values[x]; });
return copy;`. -/
def unpermuteVector (perm : List Nat) (values : List (Option α)) : List (Option α) :=
  perm.enum.foldl (fun copy p => jsSet copy p.1 (jsGet values p.2)) values

/-- The message of the length-mismatch error thrown by `updatePermutation`
(quotes of the original JavaScript string omitted). -/
def lengthMismatchMessage : String :=
  "length of layered should be the same as length of old"

/-- The element-by-element comparison loop of `updatePermutation`
(lines 86–97): `for (const [index, val] of spawnPerm().entries()) {
if (old[index] != val) { same = false; break; } }`. -/
def samePermCheck (layered old : List Nat) : Bool :=
  layered.enum.all fun p => old.get? p.1 == some p.2

/-- The construction loop of `updatePermutation` (lines 99–106):
`let output = old.slice(); spawnPerm().forEach((x, i) => { output[x] = old[i]; });`.
Both arrays are `Int32Array`s, so an out-of-range write is dropped
(`List.set` is a no-op out of range) and an out-of-range read stores `0`. -/
def reconcile (layered old : List Nat) : List Nat :=
  layered.enum.foldl (fun output p => output.set p.2 (old.getD p.1 0)) old

/-- Embedding of `updatePermutation(layered, old)` from `src/js/permute.js`
(lines 72–106), on the path where `layered` is already a permutation array:
length validation first, then the no-op check (returning `null`, modelled
as `none`), then the reconciling construction. -/
def updatePermutation (layered old : List Nat) : Except String (Option (List Nat)) :=
  if old.length ≠ layered.length then
    .error lengthMismatchMessage
  else if samePermCheck layered old then
    .ok none
  else
    .ok (some (reconcile layered old))

/-- A permutation array in the sense of the specification: a bijection of
`[0, n)` where `n` is its length — no duplicates and every entry in range. -/
def IsPerm (p : List Nat) : Prop :=
  p.Nodup ∧ ∀ x ∈ p, x < p.length

instance decIsPerm (p : List Nat) : Decidable (IsPerm p) :=
  inferInstanceAs (Decidable (p.Nodup ∧ ∀ x ∈ p, x < p.length))

/-- Convert a vector of plain numbers into its JavaScript model. -/
def jsv (l : List Nat) : List (Option Nat) :=
  l.map some

/-- The index of the last occurrence of `j` in `p`, if any: the largest
`i` with `p[i] = j`.  The entry of a scatter loop's output at position `j`
comes from this index, since later writes win. -/
def lastIdx (p : List Nat) (j : Nat) : Option Nat :=
  match p with
  | [] => none
  | x :: rest =>
    match lastIdx rest j with
    | some k => some (k + 1)
    | none => if x = j then some 0 else none

example : permuteVector [2, 0, 3, 1] (jsv [10, 20, 30, 40]) = jsv [20, 40, 10, 30] := by decide
example : unpermuteVector [2, 0, 3, 1] (jsv [20, 40, 10, 30]) = jsv [10, 20, 30, 40] := by decide
example : updatePermutation [1, 0, 2, 3] [0, 1, 2, 3] = .ok (some [1, 0, 2, 3]) := rfl
example : updatePermutation [1, 2, 0] [1, 2, 0] = .ok none := rfl
example : updatePermutation [0, 1] [0] = .error lengthMismatchMessage := rfl
example : permuteVector [2, 0, 1] (jsv [10, 20, 30]) = jsv [20, 30, 10] := by decide
example : permuteVector [1, 2, 0] (unpermuteVector [0, 1, 2] (jsv [10, 20, 30])) = jsv [30, 10, 20] := by
  decide
example : unpermuteVector [0, 1, 2] (jsv [5]) = [some 5, none, none] := by decide

/-! ## Basic lemmas about the JavaScript array model -/

theorem jsSet_of_lt {xs : List (Option α)} {i : Nat} (h : i < xs.length) (v : Option α) :
    jsSet xs i v = xs.set i v := by
  simp [jsSet, h]

theorem jsGet_of_get? {xs : List (Option α)} {i : Nat} {e : Option α}
    (h : xs.get? i = some e) : jsGet xs i = e := by
  unfold jsGet
  rw [h]
  rfl

/-! ## Characterization of the scatter loop of `permuteVector` -/

theorem scatter_char (values : List (Option α)) (rest : List Nat) :
    ∀ (i0 : Nat) (copy : List (Option α)), (∀ x ∈ rest, x < copy.length) →
      ((List.enumFrom i0 rest).foldl (fun c p => jsSet c p.2 (jsGet values p.1)) copy).length
          = copy.length ∧
      ∀ j, ((List.enumFrom i0 rest).foldl (fun c p => jsSet c p.2 (jsGet values p.1)) copy).get? j
          = match lastIdx rest j with
            | some k => some (jsGet values (i0 + k))
            | none => copy.get? j := by
  induction rest with
  | nil =>
    intro i0 copy _
    refine ⟨rfl, fun j => ?_⟩
    simp [lastIdx]
  | cons x r ih =>
    intro i0 copy hb
    have hx : x < copy.length := hb x (List.mem_cons_self x r)
    have hset : jsSet copy x (jsGet values i0) = copy.set x (jsGet values i0) :=
      jsSet_of_lt hx _
    have hb' : ∀ y ∈ r, y < (copy.set x (jsGet values i0)).length := by
      intro y hy
      simpa using hb y (List.mem_cons_of_mem x hy)
    obtain ⟨ihlen, ihget⟩ := ih (i0 + 1) (copy.set x (jsGet values i0)) hb'
    have hstep :
        (List.enumFrom i0 (x :: r)).foldl (fun c p => jsSet c p.2 (jsGet values p.1)) copy
          = (List.enumFrom (i0 + 1) r).foldl (fun c p => jsSet c p.2 (jsGet values p.1))
              (copy.set x (jsGet values i0)) := by
      rw [List.enumFrom_cons, List.foldl_cons, hset]
    constructor
    · rw [hstep, ihlen]; simp
    · intro j
      rw [hstep, ihget j]
      cases hl : lastIdx r j with
      | some k =>
        simp only [lastIdx, hl]
        have : i0 + 1 + k = i0 + (k + 1) := by omega
        rw [this]
      | none =>
        simp only [lastIdx, hl]
        by_cases hxj : x = j
        · subst hxj
          rw [if_pos rfl, List.get?_set_eq_of_lt _ hx]
          simp
        · rw [if_neg hxj, List.get?_set_ne _ _ hxj]

theorem permuteVector_char (perm : List Nat) (values : List (Option α))
    (hb : ∀ x ∈ perm, x < values.length) :
    (permuteVector perm values).length = values.length ∧
    ∀ j, (permuteVector perm values).get? j
        = match lastIdx perm j with
          | some k => some (jsGet values k)
          | none => values.get? j := by
  have henum : perm.enum = List.enumFrom 0 perm := rfl
  obtain ⟨hlen, hget⟩ := scatter_char values perm 0 values hb
  refine ⟨by rw [permuteVector, henum]; exact hlen, fun j => ?_⟩
  have := hget j
  rw [permuteVector, henum, this]
  cases hl : lastIdx perm j with
  | some k => simp
  | none => rfl

/-! ## Lemmas about `lastIdx` -/

theorem lastIdx_none_spec {j : Nat} :
    ∀ {p : List Nat}, lastIdx p j = none → ∀ k, p.get? k ≠ some j := by
  intro p
  induction p with
  | nil => intro _ k; simp
  | cons x r ih =>
    intro h k
    have hr : lastIdx r j = none := by
      cases hl : lastIdx r j with
      | some m => rw [lastIdx, hl] at h; simp at h
      | none => rfl
    have hx : x ≠ j := by
      intro hxj
      rw [lastIdx, hr, if_pos hxj] at h
      simp at h
    cases k with
    | zero => simp [hx]
    | succ m => simpa using ih hr m

theorem lastIdx_some_spec {j : Nat} :
    ∀ {p : List Nat} {k : Nat}, lastIdx p j = some k →
      p.get? k = some j ∧ ∀ m, k < m → p.get? m ≠ some j := by
  intro p
  induction p with
  | nil => intro k h; simp [lastIdx] at h
  | cons x r ih =>
    intro k h
    cases hl : lastIdx r j with
    | some k0 =>
      rw [lastIdx, hl] at h
      injection h with hk
      subst hk
      obtain ⟨h1, h2⟩ := ih hl
      refine ⟨by simpa using h1, ?_⟩
      intro m hm
      cases m with
      | zero => omega
      | succ m0 =>
        have : k0 < m0 := by omega
        simpa using h2 m0 this
    | none =>
      rw [lastIdx, hl] at h
      by_cases hxj : x = j
      · rw [if_pos hxj] at h
        injection h with hk
        subst hk
        refine ⟨by simp [hxj], ?_⟩
        intro m hm
        cases m with
        | zero => omega
        | succ m0 => simpa using lastIdx_none_spec hl m0
      · rw [if_neg hxj] at h
        simp at h

theorem lastIdx_of_nodup {p : List Nat} (hn : p.Nodup) {i x : Nat}
    (h : p.get? i = some x) : lastIdx p x = some i := by
  cases hl : lastIdx p x with
  | none => exact absurd h (lastIdx_none_spec hl i)
  | some k =>
    obtain ⟨hk, _⟩ := lastIdx_some_spec hl
    have hi : i < p.length := (List.get?_eq_some.mp h).1
    have hik : i = k := List.get?_inj hi hn (h.trans hk.symm)
    rw [hik]

/-! ## Lemmas about `IsPerm` -/

theorem IsPerm.perm_range {p : List Nat} (h : IsPerm p) :
    p.Perm (List.range p.length) := by
  refine (h.1.subperm ?_).perm_of_length_le (by simp)
  intro x hx
  exact List.mem_range.mpr (h.2 x hx)

theorem IsPerm.exists_get? {p : List Nat} (h : IsPerm p) {j : Nat}
    (hj : j < p.length) : ∃ i, p.get? i = some j :=
  List.mem_iff_get?.mp (h.perm_range.mem_iff.mpr (List.mem_range.mpr hj))

theorem IsPerm.count_eq_one {p : List Nat} (h : IsPerm p) {j : Nat}
    (hj : j < p.length) : p.count j = 1 :=
  List.count_eq_one_of_mem h.1 (h.perm_range.mem_iff.mpr (List.mem_range.mpr hj))

/-! ## Closed form of `unpermuteVector` -/

theorem set_append_length (A : List β) (b : β) (B : List β) (v : β) :
    (A ++ b :: B).set A.length v = A ++ v :: B := by
  induction A with
  | nil => rfl
  | cons a A ih => simpa using ih

theorem unpermuteVector_append (p : List Nat) (x : Nat) (values : List (Option α)) :
    unpermuteVector (p ++ [x]) values
      = jsSet (unpermuteVector p values) p.length (jsGet values x) := by
  unfold unpermuteVector
  rw [List.enum_append, List.foldl_append]
  simp [List.enumFrom]

theorem unpermuteVector_closed (values : List (Option α)) (perm : List Nat)
    (h : perm.length ≤ values.length) :
    unpermuteVector perm values
      = perm.map (fun x => jsGet values x) ++ values.drop perm.length := by
  induction perm using List.reverseRecOn with
  | nil => simp [unpermuteVector]
  | append_singleton p x ih =>
    have hlt : p.length < values.length := by
      simp at h
      omega
    have hp : p.length ≤ values.length := Nat.le_of_lt hlt
    rw [unpermuteVector_append, ih hp, List.drop_eq_get_cons hlt]
    have hlen2 : p.length <
        ((p.map fun y => jsGet values y)
          ++ values.get ⟨p.length, hlt⟩ :: values.drop (p.length + 1)).length := by
      simp
      omega
    rw [jsSet, if_pos hlen2]
    have hmaplen : (p.map fun y => jsGet values y).length = p.length := by simp
    have hset := set_append_length (p.map fun y => jsGet values y)
      (values.get ⟨p.length, hlt⟩) (values.drop (p.length + 1)) (jsGet values x)
    rw [hmaplen] at hset
    rw [hset]
    simp

/-! ## Characterization of the construction loop of `updatePermutation` -/

theorem reconcile_scatter_char (old : List Nat) (rest : List Nat) :
    ∀ (i0 : Nat) (output : List Nat), (∀ x ∈ rest, x < output.length) →
      ((List.enumFrom i0 rest).foldl (fun o p => o.set p.2 (old.getD p.1 0)) output).length
          = output.length ∧
      ∀ j, ((List.enumFrom i0 rest).foldl (fun o p => o.set p.2 (old.getD p.1 0)) output).get? j
          = match lastIdx rest j with
            | some k => some (old.getD (i0 + k) 0)
            | none => output.get? j := by
  induction rest with
  | nil =>
    intro i0 output _
    refine ⟨rfl, fun j => ?_⟩
    simp [lastIdx]
  | cons x r ih =>
    intro i0 output hb
    have hx : x < output.length := hb x (List.mem_cons_self x r)
    have hb' : ∀ y ∈ r, y < (output.set x (old.getD i0 0)).length := by
      intro y hy
      simpa using hb y (List.mem_cons_of_mem x hy)
    obtain ⟨ihlen, ihget⟩ := ih (i0 + 1) (output.set x (old.getD i0 0)) hb'
    have hstep :
        (List.enumFrom i0 (x :: r)).foldl (fun o p => o.set p.2 (old.getD p.1 0)) output
          = (List.enumFrom (i0 + 1) r).foldl (fun o p => o.set p.2 (old.getD p.1 0))
              (output.set x (old.getD i0 0)) := by
      rw [List.enumFrom_cons, List.foldl_cons]
    constructor
    · rw [hstep, ihlen]; simp
    · intro j
      rw [hstep, ihget j]
      cases hl : lastIdx r j with
      | some k =>
        simp only [lastIdx, hl]
        have : i0 + 1 + k = i0 + (k + 1) := by omega
        rw [this]
      | none =>
        simp only [lastIdx, hl]
        by_cases hxj : x = j
        · subst hxj
          rw [if_pos rfl, List.get?_set_eq_of_lt _ hx]
          simp
        · rw [if_neg hxj, List.get?_set_ne _ _ hxj]

theorem reconcile_char (layered old : List Nat) (hb : ∀ x ∈ layered, x < old.length) :
    (reconcile layered old).length = old.length ∧
    ∀ j, (reconcile layered old).get? j
        = match lastIdx layered j with
          | some k => some (old.getD k 0)
          | none => old.get? j := by
  have henum : layered.enum = List.enumFrom 0 layered := rfl
  obtain ⟨hlen, hget⟩ := reconcile_scatter_char old layered 0 old hb
  refine ⟨by rw [reconcile, henum]; exact hlen, fun j => ?_⟩
  have := hget j
  rw [reconcile, henum, this]
  cases hl : lastIdx layered j with
  | some k => simp
  | none => rfl

theorem reconcile_get?_of_nodup {layered old : List Nat}
    (hlen : old.length = layered.length) (hn : layered.Nodup)
    (hb : ∀ x ∈ layered, x < layered.length) {i x : Nat}
    (h : layered.get? i = some x) : (reconcile layered old).get? x = old.get? i := by
  have hb' : ∀ x ∈ layered, x < old.length := by rw [hlen]; exact hb
  obtain ⟨_, hget⟩ := reconcile_char layered old hb'
  rw [hget x, lastIdx_of_nodup hn h]
  have hi : i < old.length := by
    rw [hlen]
    exact (List.get?_eq_some.mp h).1
  obtain ⟨e, he⟩ : ∃ e, old.get? i = some e :=
    ⟨old.get ⟨i, hi⟩, List.get?_eq_get hi⟩
  show some (old.getD i 0) = old.get? i
  rw [List.getD_eq_get?, he]
  rfl

/-! ## The no-op comparison loop -/

theorem samePermCheck_iff {layered old : List Nat}
    (hlen : old.length = layered.length) :
    samePermCheck layered old = true ↔ old = layered := by
  unfold samePermCheck
  rw [List.all_eq_true]
  constructor
  · intro h
    apply List.ext_get?
    intro n
    by_cases hn : n < layered.length
    · have hx : layered.get? n = some (layered.get ⟨n, hn⟩) := List.get?_eq_get hn
      have := h (n, layered.get ⟨n, hn⟩) (List.mem_enum_iff_get?.mpr hx)
      have heq : old.get? n = some (layered.get ⟨n, hn⟩) := by simpa using this
      rw [heq, hx]
    · have h1 : old.get? n = none := by rw [List.get?_eq_none]; omega
      have h2 : layered.get? n = none := by rw [List.get?_eq_none]; omega
      rw [h1, h2]
  · intro h p hp
    rw [h]
    have := List.mem_enum_iff_get?.mp hp
    simpa using this

/-! ## Pointwise specifications of the two mappers -/

theorem permuteVector_get?_spec {perm : List Nat} {values : List (Option α)}
    (hlen : perm.length = values.length) (hperm : IsPerm perm) {i x : Nat}
    (h : perm.get? i = some x) :
    (permuteVector perm values).get? x = values.get? i := by
  have hb : ∀ y ∈ perm, y < values.length := by
    intro y hy; rw [← hlen]; exact hperm.2 y hy
  obtain ⟨_, hg⟩ := permuteVector_char perm values hb
  rw [hg x, lastIdx_of_nodup hperm.1 h]
  have hi : i < values.length := by
    rw [← hlen]; exact (List.get?_eq_some.mp h).1
  obtain ⟨e, he⟩ : ∃ e, values.get? i = some e :=
    ⟨values.get ⟨i, hi⟩, List.get?_eq_get hi⟩
  show some (jsGet values i) = values.get? i
  rw [jsGet_of_get? he, he]

theorem permuteVector_length_spec {perm : List Nat} {values : List (Option α)}
    (hb : ∀ y ∈ perm, y < values.length) :
    (permuteVector perm values).length = values.length :=
  (permuteVector_char perm values hb).1

theorem unpermuteVector_get?_spec {perm : List Nat} {values : List (Option α)}
    (hlen : perm.length = values.length) (hperm : IsPerm perm) {i x : Nat}
    (h : perm.get? i = some x) :
    (unpermuteVector perm values).get? i = values.get? x := by
  rw [unpermuteVector_closed values perm (le_of_eq hlen)]
  have hi : i < perm.length := (List.get?_eq_some.mp h).1
  have hmap : (perm.map fun y => jsGet values y).get? i = some (jsGet values x) := by
    rw [List.get?_map, h]; rfl
  rw [List.get?_append (by simpa using hi), hmap]
  have hx : x < values.length := by
    rw [← hlen]; exact hperm.2 x (List.get?_mem h)
  obtain ⟨e, he⟩ : ∃ e, values.get? x = some e :=
    ⟨values.get ⟨x, hx⟩, List.get?_eq_get hx⟩
  rw [jsGet_of_get? he, he]

theorem unpermuteVector_length_spec {perm : List Nat} {values : List (Option α)}
    (hle : perm.length ≤ values.length) :
    (unpermuteVector perm values).length = values.length := by
  rw [unpermuteVector_closed values perm hle]
  simp
  omega

/-! ## Claims -/

/-- C4: for every bijective permutation `P` of length `n` and every vector
`V` of length `n`, `permuteVector(P, V)` returns a vector `W` of length `n`
with `W[P[i]] = V[i]` for every `i` in `[0, n)`. -/
theorem claim_forward_mapper_contract (perm : List Nat) (values : List (Option α))
    (hlen : perm.length = values.length) (hperm : IsPerm perm) :
    (permuteVector perm values).length = values.length ∧
    ∀ i x, perm.get? i = some x →
      (permuteVector perm values).get? x = values.get? i := by
  have hb : ∀ y ∈ perm, y < values.length := by
    intro y hy; rw [← hlen]; exact hperm.2 y hy
  exact ⟨permuteVector_length_spec hb,
    fun i x h => permuteVector_get?_spec hlen hperm h⟩

/-- C4 witness: the concrete scenario of the specification, `P = [2, 0, 3, 1]`
and `V = [10, 20, 30, 40]`, satisfies the hypotheses and the contract, and
the returned vector is `[20, 40, 10, 30]`. -/
theorem claim_forward_mapper_contract_witness :
    (([2, 0, 3, 1] : List Nat).length = (jsv [10, 20, 30, 40]).length ∧
        IsPerm [2, 0, 3, 1]) ∧
    ((permuteVector [2, 0, 3, 1] (jsv [10, 20, 30, 40])).length
          = (jsv [10, 20, 30, 40]).length ∧
      ∀ i x, ([2, 0, 3, 1] : List Nat).get? i = some x →
        (permuteVector [2, 0, 3, 1] (jsv [10, 20, 30, 40])).get? x
            = (jsv [10, 20, 30, 40]).get? i) ∧
    permuteVector [2, 0, 3, 1] (jsv [10, 20, 30, 40]) = jsv [20, 40, 10, 30] :=
  ⟨⟨by decide, by decide⟩,
    claim_forward_mapper_contract [2, 0, 3, 1] (jsv [10, 20, 30, 40])
      (by decide) (by decide),
    by decide⟩

/-- C5: for every bijective permutation `P` of length `n` and every vector
`W` of length `n`, `unpermuteVector(P, W)` returns a vector `V` of length
`n` with `V[i] = W[P[i]]` for every `i` in `[0, n)`. -/
theorem claim_backward_mapper_contract (perm : List Nat) (values : List (Option α))
    (hlen : perm.length = values.length) (hperm : IsPerm perm) :
    (unpermuteVector perm values).length = values.length ∧
    ∀ i x, perm.get? i = some x →
      (unpermuteVector perm values).get? i = values.get? x :=
  ⟨unpermuteVector_length_spec (le_of_eq hlen),
    fun i x h => unpermuteVector_get?_spec hlen hperm h⟩

/-- C5 witness: the concrete scenario of the specification,
`unpermuteVector([2, 0, 3, 1], [20, 40, 10, 30]) = [10, 20, 30, 40]`. -/
theorem claim_backward_mapper_contract_witness :
    (([2, 0, 3, 1] : List Nat).length = (jsv [20, 40, 10, 30]).length ∧
        IsPerm [2, 0, 3, 1]) ∧
    ((unpermuteVector [2, 0, 3, 1] (jsv [20, 40, 10, 30])).length
          = (jsv [20, 40, 10, 30]).length ∧
      ∀ i x, ([2, 0, 3, 1] : List Nat).get? i = some x →
        (unpermuteVector [2, 0, 3, 1] (jsv [20, 40, 10, 30])).get? i
            = (jsv [20, 40, 10, 30]).get? x) ∧
    unpermuteVector [2, 0, 3, 1] (jsv [20, 40, 10, 30]) = jsv [10, 20, 30, 40] :=
  ⟨⟨by decide, by decide⟩,
    claim_backward_mapper_contract [2, 0, 3, 1] (jsv [20, 40, 10, 30])
      (by decide) (by decide),
    by decide⟩

/-- C3 counterexample: `permuteVector` and `unpermuteVector` accept arrays
of different lengths without raising any error — each returns an ordinary
result vector, so the claimed `LengthMismatch` failure does not happen. -/
theorem claim_length_validation_counterexample :
    ([0] : List Nat).length ≠ (jsv [10, 20]).length ∧
    permuteVector [0] (jsv [10, 20]) = jsv [10, 20] ∧
    ([0, 1, 2] : List Nat).length ≠ (jsv [5]).length ∧
    unpermuteVector [0, 1, 2] (jsv [5]) = [some 5, none, none] :=
  ⟨by decide, by decide, by decide, by decide⟩

/-- C3 amended: only `updatePermutation` validates lengths; it fails with
the length-mismatch error, before any output is produced, whenever its two
permutation arrays have different lengths. -/
theorem claim_length_validation_amended (layered old : List Nat)
    (h : old.length ≠ layered.length) :
    updatePermutation layered old = .error lengthMismatchMessage := by
  rw [updatePermutation, if_pos h]

/-- C3 amended witness: `updatePermutation([0, 1], [0])` fails with the
length-mismatch error. -/
theorem claim_length_validation_amended_witness :
    ([0] : List Nat).length ≠ ([0, 1] : List Nat).length ∧
    updatePermutation [0, 1] [0] = .error lengthMismatchMessage :=
  ⟨by decide, claim_length_validation_amended [0, 1] [0] (by decide)⟩

/-- C6: for equal-length permutation arrays, `updatePermutation(newP, oldP)`
returns the no-op signal (`null`) if and only if `oldP[i] = newP[i]` at
every index. -/
theorem claim_noop_detection (layered old : List Nat)
    (hlen : old.length = layered.length) :
    updatePermutation layered old = .ok none
      ↔ ∀ i, old.get? i = layered.get? i := by
  rw [updatePermutation, if_neg (fun h => h hlen)]
  by_cases hs : samePermCheck layered old
  · rw [if_pos hs]
    have heq : old = layered := (samePermCheck_iff hlen).mp hs
    constructor
    · intro _ i
      rw [heq]
    · intro _
      rfl
  · rw [if_neg hs]
    constructor
    · intro h
      simp at h
    · intro hall
      exact absurd ((samePermCheck_iff hlen).mpr (List.ext_get? hall)) hs

/-- C6 witness: `updatePermutation(P, P)` for `P = [1, 0, 2]` returns the
no-op signal, via the equivalence at a concrete input. -/
theorem claim_noop_detection_witness :
    ([1, 0, 2] : List Nat).length = ([1, 0, 2] : List Nat).length ∧
    (updatePermutation [1, 0, 2] [1, 0, 2] = .ok none
      ↔ ∀ i, ([1, 0, 2] : List Nat).get? i = ([1, 0, 2] : List Nat).get? i) :=
  ⟨rfl, claim_noop_detection [1, 0, 2] [1, 0, 2] rfl⟩

/-- C7: for equal-length permutation arrays that differ somewhere (with the
new one a bijection), `updatePermutation(newP, oldP)` returns an array `Q`
of length `n`, a copy of `oldP` overwritten so that `Q[newP[i]] = oldP[i]`
for every `i`. -/
theorem claim_reconciler_construction (layered old : List Nat)
    (hlen : old.length = layered.length) (hperm : IsPerm layered)
    (hne : old ≠ layered) :
    ∃ q, updatePermutation layered old = .ok (some q) ∧
      q.length = old.length ∧
      ∀ i x, layered.get? i = some x → q.get? x = old.get? i := by
  have hs : ¬ samePermCheck layered old = true := fun hc =>
    hne ((samePermCheck_iff hlen).mp hc)
  refine ⟨reconcile layered old, ?_, ?_, ?_⟩
  · rw [updatePermutation, if_neg (fun h => h hlen), if_neg hs]
  · refine (reconcile_char layered old ?_).1
    intro x hx
    rw [hlen]
    exact hperm.2 x hx
  · intro i x h
    exact reconcile_get?_of_nodup hlen hperm.1 hperm.2 h

/-- C7 witness: the concrete reconciler scenario of the specification,
`oldP = [0, 1, 2, 3]`, `newP = [1, 0, 2, 3]`, returns exactly `[1, 0, 2, 3]`. -/
theorem claim_reconciler_construction_witness :
    (([0, 1, 2, 3] : List Nat).length = ([1, 0, 2, 3] : List Nat).length ∧
      IsPerm [1, 0, 2, 3] ∧ ([0, 1, 2, 3] : List Nat) ≠ [1, 0, 2, 3]) ∧
    updatePermutation [1, 0, 2, 3] [0, 1, 2, 3] = .ok (some [1, 0, 2, 3]) ∧
    (∃ q, updatePermutation [1, 0, 2, 3] [0, 1, 2, 3] = .ok (some q) ∧
      q.length = ([0, 1, 2, 3] : List Nat).length ∧
      ∀ i x, ([1, 0, 2, 3] : List Nat).get? i = some x →
        q.get? x = ([0, 1, 2, 3] : List Nat).get? i) :=
  ⟨⟨by decide, by decide, by decide⟩, rfl,
    claim_reconciler_construction [1, 0, 2, 3] [0, 1, 2, 3]
      (by decide) (by decide) (by decide)⟩

/-- C2: for every bijective permutation `P` of length `n`,
`unpermuteVector(P, permuteVector(P, V)) = V` for every vector `V` of
length `n`, and `permuteVector(P, unpermuteVector(P, W)) = W` for every
vector `W` of length `n`. -/
theorem claim_round_trip_law (perm : List Nat) (v w : List (Option α))
    (hperm : IsPerm perm) (hv : perm.length = v.length)
    (hw : perm.length = w.length) :
    unpermuteVector perm (permuteVector perm v) = v ∧
    permuteVector perm (unpermuteVector perm w) = w := by
  constructor
  · have hb : ∀ y ∈ perm, y < v.length := by
      intro y hy; rw [← hv]; exact hperm.2 y hy
    have hWlen : (permuteVector perm v).length = v.length :=
      permuteVector_length_spec hb
    have hple : perm.length ≤ (permuteVector perm v).length := by omega
    rw [unpermuteVector_closed _ perm hple]
    have hdrop : (permuteVector perm v).drop perm.length = [] :=
      List.drop_eq_nil_of_le (by omega)
    rw [hdrop, List.append_nil]
    apply List.ext_get?
    intro n
    by_cases hn : n < perm.length
    · have hx : perm.get? n = some (perm.get ⟨n, hn⟩) := List.get?_eq_get hn
      rw [List.get?_map, hx]
      have hWx : (permuteVector perm v).get? (perm.get ⟨n, hn⟩) = v.get? n :=
        permuteVector_get?_spec hv hperm hx
      have hnv : n < v.length := by omega
      obtain ⟨e, he⟩ : ∃ e, v.get? n = some e :=
        ⟨v.get ⟨n, hnv⟩, List.get?_eq_get hnv⟩
      rw [he] at hWx
      rw [he]
      show some (jsGet (permuteVector perm v) (perm.get ⟨n, hn⟩)) = some e
      rw [jsGet_of_get? hWx]
    · have h1 : (perm.map fun y => jsGet (permuteVector perm v) y).get? n = none := by
        rw [List.get?_eq_none]
        simp
        omega
      have h2 : v.get? n = none := by
        rw [List.get?_eq_none]
        omega
      rw [h1, h2]
  · have hV'eq : unpermuteVector perm w = perm.map fun y => jsGet w y := by
      rw [unpermuteVector_closed w perm (le_of_eq hw),
        List.drop_eq_nil_of_le (by omega), List.append_nil]
    have hV'len : (unpermuteVector perm w).length = perm.length := by
      rw [hV'eq]
      simp
    have hb : ∀ y ∈ perm, y < (unpermuteVector perm w).length := by
      intro y hy
      rw [hV'len]
      exact hperm.2 y hy
    obtain ⟨_, hg⟩ := permuteVector_char perm (unpermuteVector perm w) hb
    apply List.ext_get?
    intro n
    rw [hg n]
    by_cases hn : n < perm.length
    · obtain ⟨i, hi⟩ := hperm.exists_get? hn
      rw [lastIdx_of_nodup hperm.1 hi]
      show some (jsGet (unpermuteVector perm w) i) = w.get? n
      have hV'i : (unpermuteVector perm w).get? i = some (jsGet w n) := by
        rw [hV'eq, List.get?_map, hi]
        rfl
      rw [jsGet_of_get? hV'i]
      have hnw : n < w.length := by omega
      obtain ⟨e, he⟩ : ∃ e, w.get? n = some e :=
        ⟨w.get ⟨n, hnw⟩, List.get?_eq_get hnw⟩
      rw [jsGet_of_get? he, he]
    · cases hl : lastIdx perm n with
      | some k =>
        exfalso
        obtain ⟨hk, _⟩ := lastIdx_some_spec hl
        have : n < perm.length := hperm.2 n (List.get?_mem hk)
        omega
      | none =>
        show (unpermuteVector perm w).get? n = w.get? n
        have h1 : (unpermuteVector perm w).get? n = none := by
          rw [List.get?_eq_none]
          omega
        have h2 : w.get? n = none := by
          rw [List.get?_eq_none]
          omega
        rw [h1, h2]

/-- C2 witness: the round-trip law instantiated at `P = [2, 0, 1]`,
`V = [1, 2, 3]`, `W = [4, 5, 6]`. -/
theorem claim_round_trip_law_witness :
    (IsPerm [2, 0, 1] ∧ ([2, 0, 1] : List Nat).length = (jsv [1, 2, 3]).length ∧
      ([2, 0, 1] : List Nat).length = (jsv [4, 5, 6]).length) ∧
    (unpermuteVector [2, 0, 1] (permuteVector [2, 0, 1] (jsv [1, 2, 3])) = jsv [1, 2, 3] ∧
      permuteVector [2, 0, 1] (unpermuteVector [2, 0, 1] (jsv [4, 5, 6])) = jsv [4, 5, 6]) :=
  ⟨⟨by decide, by decide, by decide⟩,
    claim_round_trip_law [2, 0, 1] (jsv [1, 2, 3]) (jsv [4, 5, 6])
      (by decide) (by decide) (by decide)⟩

/-- C8: for bijective permutations of the same length, every position of
the reconciler's output is written exactly once (each position occurs
exactly once among the write targets `newP[i]`), and whenever
`updatePermutation` returns an array `Q` rather than the no-op signal, `Q`
is itself a bijection over `[0, n)`. -/
theorem claim_bijection_preservation (layered old : List Nat)
    (hlen : old.length = layered.length) (hl : IsPerm layered)
    (ho : IsPerm old) :
    (∀ j, j < layered.length → layered.count j = 1) ∧
    ∀ q, updatePermutation layered old = .ok (some q) → IsPerm q := by
  refine ⟨fun j hj => hl.count_eq_one hj, ?_⟩
  intro q hq
  have hq' : q = reconcile layered old := by
    rw [updatePermutation, if_neg (fun h => h hlen)] at hq
    by_cases hs : samePermCheck layered old
    · rw [if_pos hs] at hq
      simp at hq
    · rw [if_neg hs] at hq
      simp only [Except.ok.injEq, Option.some.injEq] at hq
      exact hq.symm
  subst hq'
  have hb : ∀ x ∈ layered, x < old.length := by
    intro x hx
    rw [hlen]
    exact hl.2 x hx
  have hqlen : (reconcile layered old).length = old.length :=
    (reconcile_char layered old hb).1
  have hspec : ∀ {i x : Nat}, layered.get? i = some x →
      (reconcile layered old).get? x = old.get? i :=
    fun h => reconcile_get?_of_nodup hlen hl.1 hl.2 h
  constructor
  · rw [List.nodup_iff_injective_get]
    intro a b heq
    have ha : (a : Nat) < layered.length := by
      have := a.isLt
      omega
    have hb' : (b : Nat) < layered.length := by
      have := b.isLt
      omega
    obtain ⟨i1, hi1⟩ := hl.exists_get? ha
    obtain ⟨i2, hi2⟩ := hl.exists_get? hb'
    have hga : (reconcile layered old).get? a = (reconcile layered old).get? b := by
      rw [List.get?_eq_get a.isLt, List.get?_eq_get b.isLt]
      exact congrArg some heq
    have h12 : old.get? i1 = old.get? i2 := by
      rw [← hspec hi1, ← hspec hi2]
      exact hga
    have hi1L : i1 < old.length := by
      rw [hlen]
      exact (List.get?_eq_some.mp hi1).1
    have hii : i1 = i2 := List.get?_inj hi1L ho.1 h12
    rw [hii, hi2] at hi1
    have : (a : Nat) = (b : Nat) := by
      injection hi1 with h
      exact h.symm
    exact Fin.ext this
  · intro y hy
    obtain ⟨j, hj⟩ := List.mem_iff_get?.mp hy
    have hjL : j < layered.length := by
      have := (List.get?_eq_some.mp hj).1
      omega
    obtain ⟨i, hi⟩ := hl.exists_get? hjL
    have hji : (reconcile layered old).get? j = old.get? i := hspec hi
    rw [hj] at hji
    have hyo : y ∈ old := List.get?_mem hji.symm
    have : y < old.length := ho.2 y hyo
    omega

/-- C8 witness: the hypotheses and conclusion at the concrete bijections
`oldP = [0, 1, 2]`, `newP = [1, 2, 0]` (where the output is `[2, 0, 1]`). -/
theorem claim_bijection_preservation_witness :
    (([0, 1, 2] : List Nat).length = ([1, 2, 0] : List Nat).length ∧
      IsPerm [1, 2, 0] ∧ IsPerm [0, 1, 2]) ∧
    ((∀ j, j < ([1, 2, 0] : List Nat).length → ([1, 2, 0] : List Nat).count j = 1) ∧
      ∀ q, updatePermutation [1, 2, 0] [0, 1, 2] = .ok (some q) → IsPerm q) :=
  ⟨⟨by decide, by decide, by decide⟩,
    claim_bijection_preservation [1, 2, 0] [0, 1, 2]
      (by decide) (by decide) (by decide)⟩

/-- C10: on a malformed (possibly non-bijective) permutation whose entries
lie in `[0, n)`, `permuteVector` returns a vector of length `n` with no
`undefined` entries: position `j` holds `V[i]` for the largest `i` with
`P[i] = j` when one exists, and otherwise holds the entry `V[j]` carried
over from the initial copy of `V`. -/
theorem claim_malformed_scatter (P : List Nat) (V : List α)
    (hlen : P.length = V.length) (hb : ∀ x ∈ P, x < V.length) :
    (permuteVector P (V.map some)).length = V.length ∧
    ∀ j, j < V.length →
      ∃ e, (permuteVector P (V.map some)).get? j = some (some e) ∧
        ((∃ i, P.get? i = some j ∧ (∀ k, i < k → P.get? k ≠ some j) ∧
            V.get? i = some e) ∨
          ((∀ k, P.get? k ≠ some j) ∧ V.get? j = some e)) := by
  have hb' : ∀ x ∈ P, x < (V.map some).length := by simpa using hb
  obtain ⟨hl, hg⟩ := permuteVector_char P (V.map some) hb'
  refine ⟨by rw [hl]; simp, ?_⟩
  intro j hj
  rw [hg j]
  cases hli : lastIdx P j with
  | some k =>
    obtain ⟨hk, hmax⟩ := lastIdx_some_spec hli
    have hkL : k < P.length := (List.get?_eq_some.mp hk).1
    have hkV : k < V.length := by omega
    refine ⟨V.get ⟨k, hkV⟩, ?_, Or.inl ⟨k, hk, hmax, List.get?_eq_get hkV⟩⟩
    show some (jsGet (V.map some) k) = some (some (V.get ⟨k, hkV⟩))
    have hmk : (V.map some).get? k = some (some (V.get ⟨k, hkV⟩)) := by
      rw [List.get?_map, List.get?_eq_get hkV]
      rfl
    rw [jsGet_of_get? hmk]
  | none =>
    refine ⟨V.get ⟨j, hj⟩, ?_, Or.inr ⟨lastIdx_none_spec hli, List.get?_eq_get hj⟩⟩
    show (V.map some).get? j = some (some (V.get ⟨j, hj⟩))
    rw [List.get?_map, List.get?_eq_get hj]
    rfl

/-- C10 witness: `P = [0, 0, 2]` is not a bijection; `permuteVector` still
returns a fully defined vector, `[2, 2, 3]` for `V = [1, 2, 3]` (position 0
takes the later write `V[1]`, position 1 keeps the copied `V[1]`). -/
theorem claim_malformed_scatter_witness :
    (([0, 0, 2] : List Nat).length = ([1, 2, 3] : List Nat).length ∧
      ∀ x ∈ ([0, 0, 2] : List Nat), x < ([1, 2, 3] : List Nat).length) ∧
    permuteVector [0, 0, 2] ([1, 2, 3].map some) = [some 2, some 2, some 3] ∧
    ((permuteVector [0, 0, 2] ([1, 2, 3].map some)).length
        = ([1, 2, 3] : List Nat).length ∧
      ∀ j, j < ([1, 2, 3] : List Nat).length →
        ∃ e, (permuteVector [0, 0, 2] ([1, 2, 3].map some)).get? j = some (some e) ∧
          ((∃ i, ([0, 0, 2] : List Nat).get? i = some j ∧
              (∀ k, i < k → ([0, 0, 2] : List Nat).get? k ≠ some j) ∧
              ([1, 2, 3] : List Nat).get? i = some e) ∨
            ((∀ k, ([0, 0, 2] : List Nat).get? k ≠ some j) ∧
              ([1, 2, 3] : List Nat).get? j = some e))) :=
  ⟨⟨by decide, by decide⟩, by decide,
    claim_malformed_scatter [0, 0, 2] [1, 2, 3] (by decide) (by decide)⟩

/-- C1: the reconciler composition law fails on the code.  For
`oldP = [0, 1, 2]`, `newP = [1, 2, 0]` and `R = [10, 20, 30]`,
`updatePermutation(newP, oldP)` returns `Q = [2, 0, 1]` (not the no-op
signal), but `permuteVector(Q, R) = [20, 30, 10]` while the via-logical
route `permuteVector(newP, unpermuteVector(oldP, R))` gives `[30, 10, 20]`.
The last conjunct shows the returned `Q` instead satisfies the law with
`unpermuteVector`, pinpointing the inverted direction. -/
theorem claim_composition_law_counterexample :
    updatePermutation [1, 2, 0] [0, 1, 2] = .ok (some [2, 0, 1]) ∧
    permuteVector [2, 0, 1] (jsv [10, 20, 30]) = jsv [20, 30, 10] ∧
    permuteVector [1, 2, 0] (unpermuteVector [0, 1, 2] (jsv [10, 20, 30]))
        = jsv [30, 10, 20] ∧
    permuteVector [2, 0, 1] (jsv [10, 20, 30])
        ≠ permuteVector [1, 2, 0] (unpermuteVector [0, 1, 2] (jsv [10, 20, 30])) ∧
    unpermuteVector [2, 0, 1] (jsv [10, 20, 30]) = jsv [30, 10, 20] :=
  ⟨rfl, by decide, by decide, by decide, by decide⟩
